import Mathlib

/-!
Verification of the bee-colony TSP solver (src/solver.py).

Shallow embedding conventions:
* Python ints that are always non-negative in every caller (city counts,
  `num_bees`, `num_sites`, `limit`, costs) are modelled as `ℕ`.  The source
  computes `num_onlookers = num_bees - num_sites` in ℤ and guards with
  `num_onlookers > 0`; with truncated ℕ subtraction the guard and the loop
  count agree with the ℤ semantics, so `ℕ` subtraction is faithful here.
* `float('inf')` (the initial `best_cost`) is modelled as `⊤ : WithTop ℕ`.
* The three pseudo-random sources the solver consumes are modelled as
  abstract streams indexed by a draw counter threaded through the state:
  `initTour` for `np.random.permutation`, `swapPair` for
  `random.sample(range(NUM_CITIES), 2)` and `elitePick` for the position
  chosen by `random.choice` inside the elite index list.  Theorems that
  need the library contracts of those calls (a permutation is returned, the
  two sampled positions are distinct and in range, the chosen position is
  in range) take them as hypotheses; quantifying over all streams covers
  every seed.
* List indexing uses `getD` with default values; every faithful execution
  point keeps indices in range (out-of-range indexing would raise in
  Python), and the theorems carry the hypotheses that keep them in range.
* `np.argsort` (whose tie order is unspecified, quicksort) is modelled by a
  stable insertion sort of the index list; no claim is tie-sensitive.
-/

namespace Solver

/-- The distance table: `DIST_MATRIX` as an abstract function from a pair of
city indices to a non-negative integer distance.  The source builds a fixed
seeded 300×300 matrix; the claims quantify over tables, so it is a
parameter. -/
def NUM_CITIES : ℕ := 300

/-- Abstract pseudo-random streams consumed by `BeeTSP.run`, indexed by a
per-kind draw counter. -/
structure Streams where
  initTour : ℕ → List ℕ
  swapPair : ℕ → ℕ × ℕ
  elitePick : ℕ → ℕ

/-- Constructor arguments of `BeeTSP.__init__`. -/
structure Config where
  num_bees : ℕ
  num_sites : ℕ
  limit : ℕ
deriving DecidableEq, Repr

/-- The mutable state of one `BeeTSP` instance together with the local
variables of `run` (`population`, `costs`) and the random draw counters
(`nc`: permutations drawn, `sc`: swap pairs drawn, `ec`: elite choices
drawn, modelling the cursors of the global PRNG streams). -/
structure RunState where
  population : List (List ℕ)
  costs : List ℕ
  best_cost : WithTop ℕ
  best_solution : Option (List ℕ)
  history : List (WithTop ℕ)
  nc : ℕ
  sc : ℕ
  ec : ℕ
deriving DecidableEq, Repr

/-- State established by `BeeTSP.__init__`: `best_solution = None`,
`best_cost = float('inf')`, `history = []`. -/
def initState : RunState :=
  { population := [], costs := [], best_cost := ⊤, best_solution := none,
    history := [], nc := 0, sc := 0, ec := 0 }

/-- `calculate_cost` from src/solver.py: sums `table[path[i], path[i+1]]`
over consecutive pairs (`path[:-1]` against `path[1:]`) and adds the
wrap-around edge `table[path[-1], path[0]]`.  Python raises on an empty
path; the embedding uses defaults there, and the theorems only apply it to
non-empty paths. -/
def calculate_cost (table : ℕ → ℕ → ℕ) (path : List ℕ) : ℕ :=
  ((path.dropLast.zip path.tail).map (fun pr => table pr.1 pr.2)).sum
    + table (path.getLastD 0) (path.headD 0)

/-- The in-place double assignment `p[a], p[b] = p[b], p[a]` on a copy of a
tour: both right-hand sides are read from the original list. -/
def swapPos (p : List ℕ) (a b : ℕ) : List ℕ :=
  (p.set a (p.getD b 0)).set b (p.getD a 0)

/-- One candidate evaluation with greedy strictly-improving acceptance,
shared verbatim by the exploitation and onlooker phases: copy the tour at
population index `i`, swap the two positions `ab`, evaluate, and accept
iff the candidate cost is strictly below `costs[i]`, updating the global
best on strict improvement (the nested `if c < self.best_cost`). -/
def improveAt (table : ℕ → ℕ → ℕ) (ab : ℕ × ℕ) (i : ℕ) (st : RunState) :
    RunState :=
  let p := swapPos (st.population.getD i []) ab.1 ab.2
  let c := calculate_cost table p
  if c < st.costs.getD i 0 then
    { st with
      population := st.population.set i p,
      costs := st.costs.set i c,
      best_cost := if (c : WithTop ℕ) < st.best_cost then (c : WithTop ℕ)
        else st.best_cost,
      best_solution := if (c : WithTop ℕ) < st.best_cost then some p
        else st.best_solution }
  else st

/-- Seeding one site of the initial population: draw a permutation, append
it with its cost, and update the incumbent on strict improvement. -/
def seedSite (table : ℕ → ℕ → ℕ) (rnd : Streams) (st : RunState) : RunState :=
  let p := rnd.initTour st.nc
  let c := calculate_cost table p
  { st with
    population := st.population ++ [p],
    costs := st.costs ++ [c],
    nc := st.nc + 1,
    best_cost := if (c : WithTop ℕ) < st.best_cost then (c : WithTop ℕ)
      else st.best_cost,
    best_solution := if (c : WithTop ℕ) < st.best_cost then some p
      else st.best_solution }

/-- The population-seeding loop `for _ in range(self.num_sites)` of `run`. -/
def initPhase (table : ℕ → ℕ → ℕ) (rnd : Streams) (ns : ℕ) (st : RunState) :
    RunState :=
  (List.range ns).foldl (fun s _ => seedSite table rnd s) st

/-- One exploitation step at site `i`: draw a swap pair and apply
`improveAt`. -/
def exploitSite (table : ℕ → ℕ → ℕ) (rnd : Streams) (st : RunState) (i : ℕ) :
    RunState :=
  improveAt table (rnd.swapPair st.sc) i { st with sc := st.sc + 1 }

/-- The exploitation phase `for i in range(self.num_sites)`. -/
def exploitPhase (table : ℕ → ℕ → ℕ) (rnd : Streams) (ns : ℕ)
    (st : RunState) : RunState :=
  (List.range ns).foldl (exploitSite table rnd) st

/-- The index list `np.argsort(costs)`: the positions of `costs` ordered by
ascending value.  numpy leaves the order of ties unspecified; the embedding
fixes the stable order. -/
def argsort (l : List ℕ) : List ℕ :=
  List.insertionSort (fun i j => l.getD i 0 ≤ l.getD j 0)
    (List.range l.length)

/-- `best_sites_indices = sorted_idx[:max(1, self.num_sites // 2)]`. -/
def eliteIndices (ns : ℕ) (costs : List ℕ) : List ℕ :=
  (argsort costs).take (max 1 (ns / 2))

/-- One onlooker perturbation: choose an elite site, draw a swap pair and
apply the shared greedy acceptance at that site. -/
def onlookerStep (table : ℕ → ℕ → ℕ) (rnd : Streams) (elite : List ℕ)
    (st : RunState) : RunState :=
  let target := elite.getD (rnd.elitePick st.ec) 0
  improveAt table (rnd.swapPair st.sc) target
    { st with ec := st.ec + 1, sc := st.sc + 1 }

/-- The onlooker phase: skipped unless `num_onlookers > 0`, otherwise
`num_onlookers` perturbations against an elite list computed once from the
costs at phase entry. -/
def onlookerPhase (table : ℕ → ℕ → ℕ) (rnd : Streams) (bees ns : ℕ)
    (st : RunState) : RunState :=
  if bees - ns > 0 then
    (List.range (bees - ns)).foldl
      (fun s _ => onlookerStep table rnd (eliteIndices ns st.costs) s) st
  else st

/-- One round of the main loop: exploitation, onlookers, then
`self.history.append(self.best_cost)`.  (The optional progress callback is
a pure side channel and is not modelled.) -/
def runRound (table : ℕ → ℕ → ℕ) (rnd : Streams) (bees ns : ℕ)
    (st : RunState) : RunState :=
  let st2 := onlookerPhase table rnd bees ns (exploitPhase table rnd ns st)
  { st2 with history := st2.history ++ [st2.best_cost] }

/-- `for it in range(self.limit)` iterated rounds. -/
def runRounds (table : ℕ → ℕ → ℕ) (rnd : Streams) (bees ns : ℕ) :
    ℕ → RunState → RunState
  | 0, st => st
  | k + 1, st => runRounds table rnd bees ns k (runRound table rnd bees ns st)

/-- Entry to `run`: the local variables `population = []`, `costs = []` are
fresh, while the instance fields (`best_cost`, `best_solution`, `history`)
and the PRNG cursors persist from the incoming state. -/
def resetLocal (st : RunState) : RunState :=
  { st with population := [], costs := [] }

/-- `BeeTSP.run`: seed the population, then iterate `limit` rounds.  The
returned Python pair `(self.best_solution, self.history)` is read off the
final state. -/
def run (table : ℕ → ℕ → ℕ) (rnd : Streams) (cfg : Config) (st : RunState) :
    RunState :=
  runRounds table rnd cfg.num_bees cfg.num_sites cfg.limit
    (initPhase table rnd cfg.num_sites (resetLocal st))

/-- The state right after the population of a fresh run is seeded. -/
def initialPop (table : ℕ → ℕ → ℕ) (rnd : Streams) (ns : ℕ) : RunState :=
  initPhase table rnd ns (resetLocal initState)

/-- The invariant of claim C9: the incumbent best cost is a lower bound for
every cached population cost. -/
def Inv (st : RunState) : Prop :=
  ∀ j, j < st.costs.length → st.best_cost ≤ (st.costs.getD j 0 : WithTop ℕ)

/-- The cached cost list and the population are index-aligned. -/
def LenEq (st : RunState) : Prop :=
  st.costs.length = st.population.length

/-- All population members are permutations of the city index range. -/
def PopPerm (n : ℕ) (st : RunState) : Prop :=
  ∀ p ∈ st.population, p.Perm (List.range n)

/-- An arbitrary small concrete instance (two cities, all distances 1,
constant streams) used to instantiate hypotheses in witness theorems. -/
def tableW : ℕ → ℕ → ℕ := fun _ _ => 1

/-- Concrete streams over two cities for witness theorems. -/
def rndW : Streams :=
  { initTour := fun _ => [0, 1],
    swapPair := fun _ => (0, 1),
    elitePick := fun _ => 0 }

/-- A concrete mid-run state satisfying `Inv`, used to witness the
update-on-improvement property. -/
def stW9 : RunState :=
  { population := [[1, 0]], costs := [30], best_cost := (30 : ℕ),
    best_solution := some [1, 0], history := [], nc := 1, sc := 0, ec := 0 }

/-- The concrete 4-city distance table of the C5 counterexample (entries in
the same [5,150] band the seeded global matrix draws from; zero diagonal). -/
def tableC5 : ℕ → ℕ → ℕ := fun i j =>
  match i, j with
  | 0, 1 => 25 | 0, 2 => 5  | 0, 3 => 25
  | 1, 0 => 5  | 1, 2 => 25 | 1, 3 => 10
  | 2, 0 => 25 | 2, 1 => 10 | 2, 3 => 5
  | 3, 0 => 10 | 3, 1 => 5  | 3, 2 => 25
  | _, _ => 0

/-- The concrete PRNG streams of the C5 counterexample.  Both compared runs
consume the same streams, modelling the same seed: the run with an extra
onlooker bee consumes one extra swap draw per round, which shifts every
later exploitation draw. -/
def rndC5 : Streams :=
  { initTour := fun k => if k = 0 then [0, 1, 2, 3] else [0, 2, 1, 3],
    swapPair := fun t =>
      match t with
      | 0 => (2, 3) | 1 => (1, 2) | 2 => (0, 1) | 3 => (1, 3) | _ => (0, 2),
    elitePick := fun _ => 0 }

/-- Hyperparameter vector handled by ParameterTuner. -/
structure TunerParams where
  num_bees : ℕ
  num_sites : ℕ
  limit : ℕ
deriving DecidableEq, Repr

/-- The three tuning axes (keys of param_ranges / current_params). -/
inductive PKey where
  | bees
  | sites
  | lim
deriving DecidableEq, Repr

/-- The candidate sets of ParameterTuner.__init__: range(10, 210, 20),
range(5, 55, 5) and range(500, 2500, 500). -/
def param_range : PKey → List ℕ
  | .bees => List.range' 10 10 20
  | .sites => List.range' 5 10 5
  | .lim => List.range' 500 4 500

/-- Read one axis of a parameter vector. -/
def getKey : TunerParams → PKey → ℕ
  | p, .bees => p.num_bees
  | p, .sites => p.num_sites
  | p, .lim => p.limit

/-- Replace one axis of a parameter vector (test_params = copy + update). -/
def setKey : TunerParams → PKey → ℕ → TunerParams
  | p, .bees, v => { p with num_bees := v }
  | p, .sites, v => { p with num_sites := v }
  | p, .lim, v => { p with limit := v }

/-- current_params of ParameterTuner.__init__.  Note num_bees = 100 is not
a member of its own candidate set range(10, 210, 20). -/
def initial_params : TunerParams := ⟨100, 25, 1000⟩

/-- One step of the inner candidate scan: strict-improvement selection
against best_cost_for_key, which starts at float('inf') (⊤).  The
objective `evaluate` (three fresh nondeterministic optimizer runs averaged
with np.mean) is abstracted as a total function into ℚ; the claim holds
for every such oracle. -/
def selStep (eval : TunerParams → ℚ) (cur : TunerParams) (k : PKey)
    (acc : ℕ × WithTop ℚ) (v : ℕ) : ℕ × WithTop ℚ :=
  if ((eval (setKey cur k v) : ℚ) : WithTop ℚ) < acc.2
  then (v, ((eval (setKey cur k v) : ℚ) : WithTop ℚ)) else acc

/-- best_val_for_key after scanning every candidate of one axis, starting
from the current value and an infinite best cost. -/
def selectVal (eval : TunerParams → ℚ) (cur : TunerParams) (k : PKey) : ℕ :=
  ((param_range k).foldl (selStep eval cur k)
    (getKey cur k, (⊤ : WithTop ℚ))).1

/-- The loop state of tune: current vector, best vector, changed flag. -/
structure TState where
  cur : TunerParams
  best : TunerParams
  changed : Bool
deriving DecidableEq, Repr

/-- Processing one axis inside a cycle: commit the selected value iff it
differs from the current one, also recording best_params and the changed
flag. -/
def tuneKey (eval : TunerParams → ℚ) (k : PKey) (s : TState) : TState :=
  let bv := selectVal eval s.cur k
  if bv ≠ getKey s.cur k then
    { cur := setKey s.cur k bv, best := setKey s.cur k bv, changed := true }
  else s

/-- One cycle of coordinate descent over the axes in source order. -/
def tuneCycle (eval : TunerParams → ℚ) (s : TState) : TState :=
  tuneKey eval .lim (tuneKey eval .sites (tuneKey eval .bees s))

/-- The while loop of tune: `while changed and cycle < MAX_CYCLES`, with
the changed flag cleared at the top of each cycle. -/
def tuneLoop (eval : TunerParams → ℚ) : ℕ → TState → TunerParams
  | 0, s => s.best
  | fuel + 1, s =>
    if s.changed then
      tuneLoop eval fuel (tuneCycle eval { s with changed := false })
    else s.best

/-- ParameterTuner.tune: up to MAX_CYCLES = 3 cycles starting from the
default parameters, returning best_params. -/
def tune (eval : TunerParams → ℚ) : TunerParams :=
  tuneLoop eval 3 ⟨initial_params, initial_params, true⟩

/-- Everything the claim asserts of the returned vector: each component is
a member of its axis's candidate set. -/
def inRange (p : TunerParams) : Prop :=
  p.num_bees ∈ param_range .bees ∧ p.num_sites ∈ param_range .sites ∧
    p.limit ∈ param_range .lim

lemma getD_set (l : List ℕ) (i j v : ℕ) :
    (l.set i v).getD j 0 = if i = j ∧ i < l.length then v else l.getD j 0 := by
  induction l generalizing i j with
  | nil => simp
  | cons a t ih =>
    cases i with
    | zero =>
      cases j with
      | zero => simp
      | succ j => simp
    | succ i =>
      cases j with
      | zero => simp
      | succ j =>
        simp only [List.set_cons_succ, List.getD_cons_succ, ih i j,
          List.length_cons]
        by_cases h : i = j ∧ i < t.length
        · rw [if_pos h, if_pos ⟨by omega, by omega⟩]
        · rw [if_neg h, if_neg (by omega)]

lemma set_getD_self (l : List ℕ) (i : ℕ) (h : i < l.length) :
    l.set i (l.getD i 0) = l := by
  induction l generalizing i with
  | nil => simp
  | cons a t ih =>
    cases i with
    | zero => simp
    | succ i =>
      simp only [List.getD_cons_succ, List.set_cons_succ, List.cons.injEq,
        true_and]
      exact ih i (by simpa using h)

lemma improveAt_best_le (table : ℕ → ℕ → ℕ) (ab : ℕ × ℕ) (i : ℕ)
    (st : RunState) : (improveAt table ab i st).best_cost ≤ st.best_cost := by
  unfold improveAt
  dsimp only
  split
  · dsimp only
    split
    · exact le_of_lt (by assumption)
    · exact le_refl _
  · exact le_refl _

lemma improveAt_history (table : ℕ → ℕ → ℕ) (ab : ℕ × ℕ) (i : ℕ)
    (st : RunState) : (improveAt table ab i st).history = st.history := by
  unfold improveAt
  dsimp only
  split <;> rfl

lemma improveAt_costs_length (table : ℕ → ℕ → ℕ) (ab : ℕ × ℕ) (i : ℕ)
    (st : RunState) :
    (improveAt table ab i st).costs.length = st.costs.length := by
  unfold improveAt
  dsimp only
  split <;> simp

lemma improveAt_population_length (table : ℕ → ℕ → ℕ) (ab : ℕ × ℕ) (i : ℕ)
    (st : RunState) :
    (improveAt table ab i st).population.length = st.population.length := by
  unfold improveAt
  dsimp only
  split <;> simp

lemma seedSite_best_le (table : ℕ → ℕ → ℕ) (rnd : Streams) (st : RunState) :
    (seedSite table rnd st).best_cost ≤ st.best_cost := by
  unfold seedSite
  dsimp only
  split
  · exact le_of_lt (by assumption)
  · exact le_refl _

lemma seedSite_history (table : ℕ → ℕ → ℕ) (rnd : Streams) (st : RunState) :
    (seedSite table rnd st).history = st.history := rfl

lemma foldl_best_le {β : Type} (f : RunState → β → RunState)
    (hf : ∀ s b, (f s b).best_cost ≤ s.best_cost) :
    ∀ (l : List β) (st : RunState),
      (l.foldl f st).best_cost ≤ st.best_cost := by
  intro l
  induction l with
  | nil => intro st; exact le_refl _
  | cons a t ih =>
    intro st
    exact le_trans (ih (f st a)) (hf st a)

lemma foldl_history_eq {β : Type} (f : RunState → β → RunState)
    (hf : ∀ s b, (f s b).history = s.history) :
    ∀ (l : List β) (st : RunState), (l.foldl f st).history = st.history := by
  intro l
  induction l with
  | nil => intro st; rfl
  | cons a t ih =>
    intro st
    rw [List.foldl_cons, ih (f st a), hf st a]

lemma exploitSite_best_le (table : ℕ → ℕ → ℕ) (rnd : Streams)
    (st : RunState) (i : ℕ) :
    (exploitSite table rnd st i).best_cost ≤ st.best_cost :=
  improveAt_best_le table _ i _

lemma exploitPhase_best_le (table : ℕ → ℕ → ℕ) (rnd : Streams) (ns : ℕ)
    (st : RunState) : (exploitPhase table rnd ns st).best_cost ≤ st.best_cost :=
  foldl_best_le _ (exploitSite_best_le table rnd) _ st

lemma onlookerStep_best_le (table : ℕ → ℕ → ℕ) (rnd : Streams)
    (elite : List ℕ) (st : RunState) :
    (onlookerStep table rnd elite st).best_cost ≤ st.best_cost :=
  improveAt_best_le table _ _ _

lemma onlookerPhase_best_le (table : ℕ → ℕ → ℕ) (rnd : Streams) (bees ns : ℕ)
    (st : RunState) :
    (onlookerPhase table rnd bees ns st).best_cost ≤ st.best_cost := by
  unfold onlookerPhase
  split
  · exact foldl_best_le _ (fun s _ => onlookerStep_best_le table rnd _ s) _ st
  · exact le_refl _

lemma runRound_best_eq (table : ℕ → ℕ → ℕ) (rnd : Streams) (bees ns : ℕ)
    (st : RunState) :
    (runRound table rnd bees ns st).best_cost
      = (onlookerPhase table rnd bees ns (exploitPhase table rnd ns st)).best_cost := rfl

lemma runRound_best_le (table : ℕ → ℕ → ℕ) (rnd : Streams) (bees ns : ℕ)
    (st : RunState) :
    (runRound table rnd bees ns st).best_cost ≤ st.best_cost := by
  rw [runRound_best_eq]
  exact le_trans (onlookerPhase_best_le table rnd bees ns _)
    (exploitPhase_best_le table rnd ns st)

lemma runRounds_succ_comm (table : ℕ → ℕ → ℕ) (rnd : Streams) (bees ns : ℕ) :
    ∀ (k : ℕ) (st : RunState),
      runRounds table rnd bees ns (k + 1) st
        = runRound table rnd bees ns (runRounds table rnd bees ns k st) := by
  intro k
  induction k with
  | zero => intro st; rfl
  | succ k ih =>
    intro st
    show runRounds table rnd bees ns (k + 1) (runRound table rnd bees ns st)
      = _
    rw [ih (runRound table rnd bees ns st)]
    rfl

lemma runRounds_best_le (table : ℕ → ℕ → ℕ) (rnd : Streams) (bees ns : ℕ) :
    ∀ (k : ℕ) (st : RunState),
      (runRounds table rnd bees ns k st).best_cost ≤ st.best_cost := by
  intro k
  induction k with
  | zero => intro st; exact le_refl _
  | succ k ih =>
    intro st
    exact le_trans (ih (runRound table rnd bees ns st))
      (runRound_best_le table rnd bees ns st)

lemma exploitSite_history (table : ℕ → ℕ → ℕ) (rnd : Streams)
    (st : RunState) (i : ℕ) :
    (exploitSite table rnd st i).history = st.history := by
  unfold exploitSite
  rw [improveAt_history]

lemma onlookerStep_history (table : ℕ → ℕ → ℕ) (rnd : Streams)
    (elite : List ℕ) (st : RunState) :
    (onlookerStep table rnd elite st).history = st.history := by
  unfold onlookerStep
  rw [improveAt_history]

lemma exploitPhase_history (table : ℕ → ℕ → ℕ) (rnd : Streams) (ns : ℕ)
    (st : RunState) : (exploitPhase table rnd ns st).history = st.history :=
  foldl_history_eq (exploitSite table rnd)
    (exploitSite_history table rnd) _ st

lemma onlookerPhase_history (table : ℕ → ℕ → ℕ) (rnd : Streams) (bees ns : ℕ)
    (st : RunState) :
    (onlookerPhase table rnd bees ns st).history = st.history := by
  unfold onlookerPhase
  split
  · exact foldl_history_eq
      (fun s _ => onlookerStep table rnd (eliteIndices ns st.costs) s)
      (fun s _ => onlookerStep_history table rnd _ s) _ st
  · rfl

lemma runRound_history (table : ℕ → ℕ → ℕ) (rnd : Streams) (bees ns : ℕ)
    (st : RunState) :
    (runRound table rnd bees ns st).history
      = st.history ++ [(runRound table rnd bees ns st).best_cost] := by
  unfold runRound
  dsimp only
  rw [onlookerPhase_history, exploitPhase_history]

lemma runRounds_history_length (table : ℕ → ℕ → ℕ) (rnd : Streams)
    (bees ns : ℕ) : ∀ (k : ℕ) (st : RunState),
      (runRounds table rnd bees ns k st).history.length
        = st.history.length + k := by
  intro k
  induction k with
  | zero => intro st; rfl
  | succ k ih =>
    intro st
    rw [runRounds_succ_comm, runRound_history, List.length_append, ih st]
    simp
    omega

lemma runRounds_history_ex (table : ℕ → ℕ → ℕ) (rnd : Streams)
    (bees ns : ℕ) : ∀ (k : ℕ) (st : RunState),
      ∃ t, (runRounds table rnd bees ns k st).history = st.history ++ t := by
  intro k
  induction k with
  | zero =>
    intro st
    refine ⟨[], ?_⟩
    rw [List.append_nil]
    rfl
  | succ k ih =>
    intro st
    obtain ⟨t, ht⟩ := ih st
    refine ⟨t ++ [(runRounds table rnd bees ns (k + 1) st).best_cost], ?_⟩
    rw [runRounds_succ_comm, runRound_history, ht, List.append_assoc,
      ← runRounds_succ_comm]

lemma runRounds_history_getD (table : ℕ → ℕ → ℕ) (rnd : Streams)
    (bees ns : ℕ) : ∀ (k : ℕ) (st : RunState) (i : ℕ), i < k →
      (runRounds table rnd bees ns k st).history.getD
          (st.history.length + i) ⊤
        = (runRounds table rnd bees ns (i + 1) st).best_cost := by
  intro k
  induction k with
  | zero => intro st i hi; omega
  | succ k ih =>
    intro st i hi
    rw [runRounds_succ_comm, runRound_history]
    rcases Nat.lt_or_ge i k with h | h
    · rw [List.getD_append _ _ _ _
        (by rw [runRounds_history_length]; omega)]
      exact ih st i h
    · have hik : i = k := by omega
      subst hik
      have hlen : (runRounds table rnd bees ns i st).history.length
          = st.history.length + i :=
        runRounds_history_length table rnd bees ns i st
      rw [List.getD_append_right _ _ _ _ hlen.le, hlen, Nat.sub_self,
        List.getD_cons_zero, ← runRounds_succ_comm]

lemma initPhase_history (table : ℕ → ℕ → ℕ) (rnd : Streams) (ns : ℕ)
    (st : RunState) : (initPhase table rnd ns st).history = st.history :=
  foldl_history_eq _ (fun s _ => seedSite_history table rnd s) _ st

lemma initPhase_best_le (table : ℕ → ℕ → ℕ) (rnd : Streams) (ns : ℕ)
    (st : RunState) : (initPhase table rnd ns st).best_cost ≤ st.best_cost :=
  foldl_best_le _ (fun s _ => seedSite_best_le table rnd s) _ st

lemma inv_improveAt (table : ℕ → ℕ → ℕ) (ab : ℕ × ℕ) (i : ℕ)
    (st : RunState) (h : Inv st) : Inv (improveAt table ab i st) := by
  unfold improveAt
  dsimp only
  split
  case isTrue hc =>
    intro j hj
    dsimp only at hj ⊢
    rw [List.length_set] at hj
    rw [getD_set]
    by_cases hij : i = j ∧ i < st.costs.length
    · rw [if_pos hij]
      split
      next hlt => exact le_refl _
      next hlt => exact not_lt.mp hlt
    · rw [if_neg hij]
      have hb := h j hj
      split
      next hlt => exact le_trans (le_of_lt hlt) hb
      next hlt => exact hb
  case isFalse hc => exact h

lemma inv_seedSite (table : ℕ → ℕ → ℕ) (rnd : Streams) (st : RunState)
    (h : Inv st) : Inv (seedSite table rnd st) := by
  unfold seedSite
  dsimp only
  intro j hj
  dsimp only at hj ⊢
  rw [List.length_append, List.length_singleton] at hj
  rcases Nat.lt_or_ge j st.costs.length with hcase | hcase
  · rw [List.getD_append _ _ _ _ hcase]
    have hb := h j hcase
    split
    case isTrue hlt => exact le_trans (le_of_lt hlt) hb
    case isFalse hlt => exact hb
  · rw [List.getD_append_right _ _ _ _ hcase]
    have hj0 : j - st.costs.length = 0 := by omega
    rw [hj0, List.getD_cons_zero]
    split
    case isTrue hlt => exact le_refl _
    case isFalse hlt => exact not_lt.mp hlt

lemma inv_foldl {β : Type} (f : RunState → β → RunState)
    (hf : ∀ s b, Inv s → Inv (f s b)) :
    ∀ (l : List β) (st : RunState), Inv st → Inv (l.foldl f st) := by
  intro l
  induction l with
  | nil => intro st h; exact h
  | cons a t ih => intro st h; exact ih (f st a) (hf st a h)

lemma inv_exploitSite (table : ℕ → ℕ → ℕ) (rnd : Streams) (st : RunState)
    (i : ℕ) (h : Inv st) : Inv (exploitSite table rnd st i) :=
  inv_improveAt table _ i _ h

lemma inv_onlookerStep (table : ℕ → ℕ → ℕ) (rnd : Streams) (elite : List ℕ)
    (st : RunState) (h : Inv st) : Inv (onlookerStep table rnd elite st) :=
  inv_improveAt table _ _ _ h

lemma inv_runRound (table : ℕ → ℕ → ℕ) (rnd : Streams) (bees ns : ℕ)
    (st : RunState) (h : Inv st) : Inv (runRound table rnd bees ns st) := by
  have h1 : Inv (exploitPhase table rnd ns st) :=
    inv_foldl _ (fun s i hs => inv_exploitSite table rnd s i hs) _ st h
  have h2 : Inv (onlookerPhase table rnd bees ns
      (exploitPhase table rnd ns st)) := by
    unfold onlookerPhase
    split
    · exact inv_foldl _ (fun s _ hs => inv_onlookerStep table rnd _ s hs) _ _ h1
    · exact h1
  exact h2

lemma inv_runRounds (table : ℕ → ℕ → ℕ) (rnd : Streams) (bees ns : ℕ) :
    ∀ (k : ℕ) (st : RunState), Inv st →
      Inv (runRounds table rnd bees ns k st) := by
  intro k
  induction k with
  | zero => intro st h; exact h
  | succ k ih =>
    intro st h
    exact ih (runRound table rnd bees ns st)
      (inv_runRound table rnd bees ns st h)

lemma inv_initialPop (table : ℕ → ℕ → ℕ) (rnd : Streams) (ns : ℕ) :
    Inv (initialPop table rnd ns) := by
  refine inv_foldl _ (fun s _ hs => inv_seedSite table rnd s hs) _ _ ?_
  intro j hj
  simp [resetLocal, initState] at hj

lemma improveAt_best_min (table : ℕ → ℕ → ℕ) (ab : ℕ × ℕ) (i : ℕ)
    (st : RunState) (h : Inv st) (hi : i < st.costs.length) :
    (improveAt table ab i st).best_cost
      = min st.best_cost
          ((calculate_cost table
            (swapPos (st.population.getD i []) ab.1 ab.2) : ℕ) : WithTop ℕ) := by
  unfold improveAt
  dsimp only
  split
  case isTrue hc =>
    dsimp only
    split
    case isTrue hlt => exact (min_eq_right (le_of_lt hlt)).symm
    case isFalse hlt => exact (min_eq_left (not_lt.mp hlt)).symm
  case isFalse hc =>
    have h1 : st.best_cost
        ≤ ((calculate_cost table
            (swapPos (st.population.getD i []) ab.1 ab.2) : ℕ) : WithTop ℕ) :=
      le_trans (h i hi) (WithTop.coe_le_coe.mpr (not_lt.mp hc))
    exact (min_eq_left h1).symm

lemma improveAt_best_update (table : ℕ → ℕ → ℕ) (ab : ℕ × ℕ) (i : ℕ)
    (st : RunState) (h : Inv st) (hi : i < st.costs.length)
    (hlt : ((calculate_cost table
        (swapPos (st.population.getD i []) ab.1 ab.2) : ℕ) : WithTop ℕ)
        < st.best_cost) :
    (improveAt table ab i st).best_cost
      = ((calculate_cost table
          (swapPos (st.population.getD i []) ab.1 ab.2) : ℕ) : WithTop ℕ) := by
  rw [improveAt_best_min table ab i st h hi]
  exact min_eq_right (le_of_lt hlt)

lemma headD_eq_getD (p : List ℕ) : p.headD 0 = p.getD 0 0 := by
  cases p <;> rfl

lemma getLastD_eq_getD :
    ∀ (p : List ℕ) (d : ℕ), p ≠ [] → p.getLastD d = p.getD (p.length - 1) 0
  | [a], _, _ => rfl
  | a :: b :: t, d, _ => by
    rw [List.getLastD_cons, getLastD_eq_getD (b :: t) a (by simp)]
    simp

lemma edges_sum_eq (t : ℕ → ℕ → ℕ) :
    ∀ p : List ℕ,
      ((p.dropLast.zip p.tail).map (fun pr => t pr.1 pr.2)).sum
        = ∑ i in Finset.range (p.length - 1),
            t (p.getD i 0) (p.getD (i + 1) 0)
  | [] => by simp
  | [a] => by simp
  | a :: b :: tl => by
    have ih := edges_sum_eq t (b :: tl)
    have hstep : ((a :: b :: tl).dropLast.zip (a :: b :: tl).tail)
        = (a, b) :: ((b :: tl).dropLast.zip (b :: tl).tail) := rfl
    rw [hstep, List.map_cons, List.sum_cons, ih]
    simp only [List.length_cons, Nat.add_sub_cancel]
    rw [Finset.sum_range_succ']
    simp only [List.getD_cons_succ, List.getD_cons_zero]
    omega

/-- Claim C1: over one call to run, the tracked best cost never increases
from round to round, it is updated (to the candidate cost, equivalently to
the minimum of old best and candidate) whenever a candidate in any phase
strictly improves on the site it targets, and the final best cost is a
lower bound of every cost in the initial population of num_sites random
tours.  The hypothesis `1 ≤ num_sites` marks the regime in which the
Python run terminates normally for positive limits. -/
theorem C1_best_monotone_bounded (table : ℕ → ℕ → ℕ) (rnd : Streams)
    (cfg : Config) (hns : 1 ≤ cfg.num_sites) :
    (∀ k, (runRounds table rnd cfg.num_bees cfg.num_sites (k + 1)
          (initialPop table rnd cfg.num_sites)).best_cost
        ≤ (runRounds table rnd cfg.num_bees cfg.num_sites k
          (initialPop table rnd cfg.num_sites)).best_cost) ∧
    (∀ j, j < (initialPop table rnd cfg.num_sites).costs.length →
      (run table rnd cfg initState).best_cost
        ≤ ((initialPop table rnd cfg.num_sites).costs.getD j 0 : WithTop ℕ)) ∧
    (∀ (st : RunState) (ab : ℕ × ℕ) (i : ℕ), Inv st → i < st.costs.length →
      (improveAt table ab i st).best_cost
        = min st.best_cost ((calculate_cost table
            (swapPos (st.population.getD i []) ab.1 ab.2) : ℕ) : WithTop ℕ)) := by
  refine ⟨?_, ?_, ?_⟩
  · intro k
    rw [runRounds_succ_comm]
    exact runRound_best_le table rnd cfg.num_bees cfg.num_sites _
  · intro j hj
    have h1 : (run table rnd cfg initState).best_cost
        ≤ (initialPop table rnd cfg.num_sites).best_cost :=
      runRounds_best_le table rnd cfg.num_bees cfg.num_sites cfg.limit _
    exact le_trans h1 (inv_initialPop table rnd cfg.num_sites j hj)
  · exact fun st ab i h hi => improveAt_best_min table ab i st h hi

/-- Witness for C1 at a concrete two-city configuration. -/
theorem C1_best_monotone_bounded_witness :
    (run tableW rndW ⟨1, 1, 1⟩ initState).best_cost
      ≤ ((initialPop tableW rndW 1).costs.getD 0 0 : WithTop ℕ) :=
  (C1_best_monotone_bounded tableW rndW ⟨1, 1, 1⟩ (by decide)).2.1 0 (by decide)

/-- Claim C2: the history of a fresh run has length exactly the configured
limit, its i-th entry is the best cost after round i completes, and it is
non-increasing. -/
theorem C2_history_shape (table : ℕ → ℕ → ℕ) (rnd : Streams) (cfg : Config)
    (hns : 1 ≤ cfg.num_sites) :
    (run table rnd cfg initState).history.length = cfg.limit ∧
    (∀ i, i < cfg.limit →
      (run table rnd cfg initState).history.getD i ⊤
        = (runRounds table rnd cfg.num_bees cfg.num_sites (i + 1)
            (initialPop table rnd cfg.num_sites)).best_cost) ∧
    (∀ i, i + 1 < cfg.limit →
      (run table rnd cfg initState).history.getD (i + 1) ⊤
        ≤ (run table rnd cfg initState).history.getD i ⊤) := by
  have hh : (initialPop table rnd cfg.num_sites).history = [] := by
    show (initPhase table rnd cfg.num_sites (resetLocal initState)).history = []
    rw [initPhase_history]
    rfl
  have hgd : ∀ i, i < cfg.limit →
      (run table rnd cfg initState).history.getD i ⊤
        = (runRounds table rnd cfg.num_bees cfg.num_sites (i + 1)
            (initialPop table rnd cfg.num_sites)).best_cost := by
    intro i hi
    have h := runRounds_history_getD table rnd cfg.num_bees cfg.num_sites
      cfg.limit (initialPop table rnd cfg.num_sites) i hi
    rw [hh] at h
    simpa using h
  refine ⟨?_, hgd, ?_⟩
  · have h := runRounds_history_length table rnd cfg.num_bees cfg.num_sites
      cfg.limit (initialPop table rnd cfg.num_sites)
    rw [hh] at h
    simpa using h
  · intro i hi
    rw [hgd i (by omega), hgd (i + 1) hi, runRounds_succ_comm]
    exact runRound_best_le table rnd cfg.num_bees cfg.num_sites _

/-- Witness for C2 at a concrete two-city configuration. -/
theorem C2_history_shape_witness :
    (run tableW rndW ⟨1, 1, 1⟩ initState).history.length = 1 :=
  (C2_history_shape tableW rndW ⟨1, 1, 1⟩ (by decide)).1

/-- Claim C9: after seeding, the incumbent best cost is a lower bound of
every cached site cost, at seeding and after every round, and the bound is
preserved by every single perturbation step; consequently a candidate that
strictly beats the global best also strictly beats its target site cost,
so the nested acceptance never misses a global-best update. -/
theorem C9_incumbent_lower_bound (table : ℕ → ℕ → ℕ) (rnd : Streams)
    (cfg : Config) :
    Inv (initialPop table rnd cfg.num_sites) ∧
    (∀ k, Inv (runRounds table rnd cfg.num_bees cfg.num_sites k
        (initialPop table rnd cfg.num_sites))) ∧
    (∀ (st : RunState) (ab : ℕ × ℕ) (i : ℕ), Inv st →
      Inv (improveAt table ab i st)) ∧
    (∀ (st : RunState) (ab : ℕ × ℕ) (i : ℕ), Inv st → i < st.costs.length →
      ((calculate_cost table
          (swapPos (st.population.getD i []) ab.1 ab.2) : ℕ) : WithTop ℕ)
          < st.best_cost →
      (improveAt table ab i st).best_cost
        = ((calculate_cost table
            (swapPos (st.population.getD i []) ab.1 ab.2) : ℕ) : WithTop ℕ)) := by
  refine ⟨inv_initialPop table rnd cfg.num_sites, ?_, ?_, ?_⟩
  · exact fun k => inv_runRounds table rnd cfg.num_bees cfg.num_sites k _
      (inv_initialPop table rnd cfg.num_sites)
  · exact fun st ab i h => inv_improveAt table ab i st h
  · exact fun st ab i h hi hlt => improveAt_best_update table ab i st h hi hlt

/-- Witness for C9: at a concrete state whose incumbent is 30, a candidate
of cost 2 updates the incumbent. -/
theorem C9_incumbent_lower_bound_witness :
    (improveAt tableW (0, 1) 0 stW9).best_cost
      = ((calculate_cost tableW
          (swapPos (stW9.population.getD 0 []) 0 1) : ℕ) : WithTop ℕ) :=
  (C9_incumbent_lower_bound tableW rndW ⟨1, 1, 1⟩).2.2.2 stW9 (0, 1) 0
    (by
      intro j hj
      have hj0 : j = 0 := by
        simp only [stW9, List.length_singleton] at hj
        omega
      subst hj0
      decide)
    (by decide) (by decide)

/-- Claim C7: for a non-degenerate tour that is a length-n permutation of
the city indices, calculate_cost is the sum of the n-1 consecutive edges
plus the wrap-around edge. -/
theorem C7_calculate_cost_eq (table : ℕ → ℕ → ℕ) (n : ℕ) (p : List ℕ)
    (hn : 1 ≤ n) (hp : p.Perm (List.range n)) :
    calculate_cost table p
      = (∑ i in Finset.range (n - 1),
          table (p.getD i 0) (p.getD (i + 1) 0))
        + table (p.getD (n - 1) 0) (p.getD 0 0) := by
  have hlen : p.length = n := by rw [hp.length_eq, List.length_range]
  have hne : p ≠ [] := by
    rw [← List.length_pos, hlen]
    omega
  unfold calculate_cost
  rw [edges_sum_eq, headD_eq_getD, getLastD_eq_getD p 0 hne, hlen]

/-- Witness for C7: the hand-checked 4×4 table of the counterexample
instance and the tour [0, 2, 1, 3]. -/
theorem C7_calculate_cost_eq_witness :
    calculate_cost tableC5 [0, 2, 1, 3]
      = (∑ i in Finset.range (4 - 1),
          tableC5 ([0, 2, 1, 3].getD i 0) ([0, 2, 1, 3].getD (i + 1) 0))
        + tableC5 ([0, 2, 1, 3].getD (4 - 1) 0) ([0, 2, 1, 3].getD 0 0) :=
  C7_calculate_cost_eq tableC5 4 [0, 2, 1, 3] (by decide) (by decide)

/-- Claim C3: the code performs no configuration validation whatsoever.
With the malformed configuration num_bees = 100, num_sites = 0, limit = 0,
construction succeeds and run returns normally with best_solution = None,
an empty history and an infinite best cost: a degenerate partial result
instead of the configuration error the specification requires.  (With
num_sites = 0 and a positive limit the Python code instead dies of an
IndexError inside random.choice mid-round, likewise not a configuration
error raised before population creation.) -/
theorem C3_no_config_validation :
    (run tableW rndW ⟨100, 0, 0⟩ initState).best_solution = none ∧
    (run tableW rndW ⟨100, 0, 0⟩ initState).history = [] ∧
    (run tableW rndW ⟨100, 0, 0⟩ initState).best_cost = ⊤ :=
  ⟨rfl, rfl, rfl⟩

/-- Claim C5 is false on the code: with the same streams, 2 sites and
2 rounds, the run with num_bees = 3 (one onlooker) finishes with best cost
35 while the run with num_bees = 2 (no onlookers) finishes with best cost
20 — the extra onlooker consumed the swap draw that the leaner run spent
on the decisive exploitation move. -/
theorem C5_counterexample :
    (run tableC5 rndC5 ⟨2, 2, 2⟩ initState).best_cost
      < (run tableC5 rndC5 ⟨3, 2, 2⟩ initState).best_cost := by
  decide

/-- Claim C5 amended: the comparison does hold for runs of at most one
round, where the two runs share every exploitation draw and the extra
onlooker perturbations can only lower the best cost. -/
theorem C5_amended_one_round (table : ℕ → ℕ → ℕ) (rnd : Streams)
    (ns bees lim : ℕ) (hb : ns ≤ bees) (hl : lim ≤ 1) :
    (run table rnd ⟨bees, ns, lim⟩ initState).best_cost
      ≤ (run table rnd ⟨ns, ns, lim⟩ initState).best_cost := by
  match lim, hl with
  | 0, _ => exact le_refl _
  | 1, _ =>
    show (runRound table rnd bees ns (initialPop table rnd ns)).best_cost
      ≤ (runRound table rnd ns ns (initialPop table rnd ns)).best_cost
    rw [runRound_best_eq, runRound_best_eq]
    have hid : onlookerPhase table rnd ns ns
        (exploitPhase table rnd ns (initialPop table rnd ns))
        = exploitPhase table rnd ns (initialPop table rnd ns) := by
      unfold onlookerPhase
      rw [Nat.sub_self]
      exact if_neg (lt_irrefl 0)
    rw [hid]
    exact onlookerPhase_best_le table rnd bees ns _

/-- Witness for the amended C5 at a concrete configuration. -/
theorem C5_amended_one_round_witness :
    (run tableW rndW ⟨2, 1, 1⟩ initState).best_cost
      ≤ (run tableW rndW ⟨1, 1, 1⟩ initState).best_cost :=
  C5_amended_one_round tableW rndW 1 2 1 (by decide) (by decide)

lemma swapPos_comm (l : List ℕ) (a b : ℕ) (hab : a ≠ b) :
    swapPos l a b = swapPos l b a := by
  unfold swapPos
  exact List.set_comm _ _ l hab

lemma swapPos_self (l : List ℕ) (a : ℕ) (ha : a < l.length) :
    swapPos l a a = l := by
  unfold swapPos
  rw [List.set_set, set_getD_self l a ha]

lemma getD_cons_set_perm :
    ∀ (t : List ℕ) (j x : ℕ), j < t.length →
      (t.getD j 0 :: t.set j x).Perm (x :: t)
  | y :: t2, 0, x, _ => List.Perm.swap x y t2
  | y :: t2, j + 1, x, h => by
    show (t2.getD j 0 :: y :: t2.set j x).Perm (x :: y :: t2)
    exact ((List.Perm.swap y (t2.getD j 0) (t2.set j x)).trans
      ((getD_cons_set_perm t2 j x (by simpa using h)).cons y)).trans
      (List.Perm.swap x y t2)

lemma swapPos_perm :
    ∀ (l : List ℕ) (a b : ℕ), a < l.length → b < l.length →
      (swapPos l a b).Perm l
  | x :: t, 0, 0, ha, _ => by
    rw [swapPos_self (x :: t) 0 ha]
  | x :: t, 0, j + 1, _, hb => by
    show (t.getD j 0 :: t.set j x).Perm (x :: t)
    exact getD_cons_set_perm t j x (by simpa using hb)
  | x :: t, i + 1, 0, ha, _ => by
    rw [swapPos_comm _ _ _ (by omega)]
    show (t.getD i 0 :: t.set i x).Perm (x :: t)
    exact getD_cons_set_perm t i x (by simpa using ha)
  | x :: t, i + 1, j + 1, ha, hb => by
    show (x :: swapPos t i j).Perm (x :: t)
    exact (swapPos_perm t i j (by simpa using ha) (by simpa using hb)).cons x

lemma lenEq_improveAt (table : ℕ → ℕ → ℕ) (ab : ℕ × ℕ) (i : ℕ)
    (st : RunState) (h : LenEq st) : LenEq (improveAt table ab i st) := by
  unfold LenEq
  rw [improveAt_costs_length, improveAt_population_length]
  exact h

lemma lenEq_seedSite (table : ℕ → ℕ → ℕ) (rnd : Streams) (st : RunState)
    (h : LenEq st) : LenEq (seedSite table rnd st) := by
  unfold LenEq at h ⊢
  unfold seedSite
  dsimp only
  simp [List.length_append, h]

lemma popPerm_improveAt (n : ℕ) (table : ℕ → ℕ → ℕ) (ab : ℕ × ℕ) (i : ℕ)
    (st : RunState) (hab : ab.1 < n ∧ ab.2 < n) (hlen : LenEq st)
    (h : PopPerm n st) : PopPerm n (improveAt table ab i st) := by
  unfold improveAt
  dsimp only
  split
  case isTrue hc =>
    intro q hq
    dsimp only at hq
    rcases List.mem_or_eq_of_mem_set hq with hmem | hq2
    · exact h q hmem
    · have hi : i < st.costs.length := by
        by_contra hni
        rw [List.getD_eq_default _ _ (le_of_not_lt hni)] at hc
        omega
      have hi2 : i < st.population.length := by
        unfold LenEq at hlen
        omega
      have hmem2 : st.population.getD i [] ∈ st.population := by
        rw [List.getD_eq_getElem _ _ hi2]
        exact List.getElem_mem hi2
      have hp : (st.population.getD i []).Perm (List.range n) := h _ hmem2
      have hplen : (st.population.getD i []).length = n :=
        hp.length_eq.trans (List.length_range n)
      rw [hq2]
      exact (swapPos_perm _ ab.1 ab.2 (by omega) (by omega)).trans hp
  case isFalse hc => exact h

lemma popPerm_seedSite (n : ℕ) (table : ℕ → ℕ → ℕ) (rnd : Streams)
    (st : RunState) (hinit : (rnd.initTour st.nc).Perm (List.range n))
    (h : PopPerm n st) : PopPerm n (seedSite table rnd st) := by
  unfold seedSite
  dsimp only
  intro q hq
  dsimp only at hq
  rcases List.mem_append.mp hq with hmem | hone
  · exact h q hmem
  · rw [List.mem_singleton.mp hone]
    exact hinit

lemma wf_foldl {β : Type} (n : ℕ) (f : RunState → β → RunState)
    (hf : ∀ s b, LenEq s ∧ PopPerm n s → LenEq (f s b) ∧ PopPerm n (f s b)) :
    ∀ (l : List β) (st : RunState), LenEq st ∧ PopPerm n st →
      LenEq (l.foldl f st) ∧ PopPerm n (l.foldl f st) := by
  intro l
  induction l with
  | nil => intro st h; exact h
  | cons a t ih => intro st h; exact ih (f st a) (hf st a h)

lemma wf_exploitSite (n : ℕ) (table : ℕ → ℕ → ℕ) (rnd : Streams)
    (hswap : ∀ t, (rnd.swapPair t).1 < n ∧ (rnd.swapPair t).2 < n)
    (st : RunState) (i : ℕ) (h : LenEq st ∧ PopPerm n st) :
    LenEq (exploitSite table rnd st i) ∧ PopPerm n (exploitSite table rnd st i) :=
  ⟨lenEq_improveAt table _ i _ h.1,
   popPerm_improveAt n table _ i _ (hswap st.sc) h.1 h.2⟩

lemma wf_onlookerStep (n : ℕ) (table : ℕ → ℕ → ℕ) (rnd : Streams)
    (hswap : ∀ t, (rnd.swapPair t).1 < n ∧ (rnd.swapPair t).2 < n)
    (elite : List ℕ) (st : RunState) (h : LenEq st ∧ PopPerm n st) :
    LenEq (onlookerStep table rnd elite st)
      ∧ PopPerm n (onlookerStep table rnd elite st) :=
  ⟨lenEq_improveAt table _ _ _ h.1,
   popPerm_improveAt n table _ _ _ (hswap st.sc) h.1 h.2⟩

lemma wf_runRound (n : ℕ) (table : ℕ → ℕ → ℕ) (rnd : Streams)
    (hswap : ∀ t, (rnd.swapPair t).1 < n ∧ (rnd.swapPair t).2 < n)
    (bees ns : ℕ) (st : RunState) (h : LenEq st ∧ PopPerm n st) :
    LenEq (runRound table rnd bees ns st)
      ∧ PopPerm n (runRound table rnd bees ns st) := by
  have h1 := wf_foldl n (exploitSite table rnd)
    (fun s i hs => wf_exploitSite n table rnd hswap s i hs)
    (List.range ns) st h
  have h2 : LenEq (onlookerPhase table rnd bees ns
        (exploitPhase table rnd ns st))
      ∧ PopPerm n (onlookerPhase table rnd bees ns
        (exploitPhase table rnd ns st)) := by
    unfold onlookerPhase
    split
    · exact wf_foldl n _
        (fun s _ hs => wf_onlookerStep n table rnd hswap _ s hs) _ _ h1
    · exact h1
  exact h2

lemma wf_runRounds (n : ℕ) (table : ℕ → ℕ → ℕ) (rnd : Streams)
    (hswap : ∀ t, (rnd.swapPair t).1 < n ∧ (rnd.swapPair t).2 < n)
    (bees ns : ℕ) :
    ∀ (k : ℕ) (st : RunState), LenEq st ∧ PopPerm n st →
      LenEq (runRounds table rnd bees ns k st)
        ∧ PopPerm n (runRounds table rnd bees ns k st) := by
  intro k
  induction k with
  | zero => intro st h; exact h
  | succ k ih =>
    intro st h
    exact ih _ (wf_runRound n table rnd hswap bees ns st h)

lemma wf_initialPop (n : ℕ) (table : ℕ → ℕ → ℕ) (rnd : Streams)
    (hinit : ∀ k, (rnd.initTour k).Perm (List.range n)) (ns : ℕ) :
    LenEq (initialPop table rnd ns) ∧ PopPerm n (initialPop table rnd ns) := by
  refine wf_foldl n _
    (fun s _ hs => ⟨lenEq_seedSite table rnd s hs.1,
      popPerm_seedSite n table rnd s (hinit s.nc) hs.2⟩) _ _ ⟨rfl, ?_⟩
  intro q hq
  simp [resetLocal, initState] at hq

/-- Claim C8: under the library contracts of np.random.permutation (the
initial draws are permutations of range n) and random.sample (the two swap
positions are in range), every tour in the population — after seeding and
after any number of rounds — is a permutation of the city indices 0..n-1:
length exactly n, no duplicates, no out-of-range entries; and every
single-transposition candidate built from such a population is one as
well. -/
theorem C8_population_permutations (n : ℕ) (table : ℕ → ℕ → ℕ)
    (rnd : Streams) (cfg : Config)
    (hinit : ∀ k, (rnd.initTour k).Perm (List.range n))
    (hswap : ∀ t, (rnd.swapPair t).1 < n ∧ (rnd.swapPair t).2 < n) :
    (∀ k, ∀ p ∈ (runRounds table rnd cfg.num_bees cfg.num_sites k
        (initialPop table rnd cfg.num_sites)).population,
      p.Perm (List.range n) ∧ p.length = n ∧ p.Nodup ∧ ∀ x ∈ p, x < n) ∧
    (∀ (st : RunState) (i a b : ℕ), LenEq st → PopPerm n st →
      i < st.population.length → a < n → b < n →
      (swapPos (st.population.getD i []) a b).Perm (List.range n)) := by
  constructor
  · intro k p hp
    have hw := (wf_runRounds n table rnd hswap cfg.num_bees cfg.num_sites k
      (initialPop table rnd cfg.num_sites)
      (wf_initialPop n table rnd hinit cfg.num_sites)).2 p hp
    refine ⟨hw, hw.length_eq.trans (List.length_range n), ?_, ?_⟩
    · exact hw.nodup_iff.mpr (List.nodup_range n)
    · intro x hx
      have := hw.mem_iff.mp hx
      exact List.mem_range.mp this
  · intro st i a b hlen hpop hi ha hb
    have hmem : st.population.getD i [] ∈ st.population := by
      rw [List.getD_eq_getElem _ _ hi]
      exact List.getElem_mem hi
    have hp := hpop _ hmem
    have hplen : (st.population.getD i []).length = n :=
      hp.length_eq.trans (List.length_range n)
    exact (swapPos_perm _ a b (by omega) (by omega)).trans hp

/-- Witness for C8 on the two-city instance: the population tour after one
round with one site is a permutation of range 2. -/
theorem C8_population_permutations_witness :
    ((runRounds tableW rndW 1 1 1
      (initialPop tableW rndW 1)).population.getD 0 []).Perm (List.range 2) := by
  have hperm : ([0, 1] : List ℕ).Perm (List.range 2) := by decide
  have hsw : (0 : ℕ) < 2 ∧ (1 : ℕ) < 2 := by decide
  exact ((C8_population_permutations 2 tableW rndW ⟨1, 1, 1⟩
    (fun _ => hperm) (fun _ => hsw)).1 1 _ (by decide)).1

lemma improveAt_sc (table : ℕ → ℕ → ℕ) (ab : ℕ × ℕ) (i : ℕ)
    (st : RunState) : (improveAt table ab i st).sc = st.sc := by
  unfold improveAt
  dsimp only
  split <;> rfl

lemma improveAt_ec (table : ℕ → ℕ → ℕ) (ab : ℕ × ℕ) (i : ℕ)
    (st : RunState) : (improveAt table ab i st).ec = st.ec := by
  unfold improveAt
  dsimp only
  split <;> rfl

lemma onlookerStep_sc (table : ℕ → ℕ → ℕ) (rnd : Streams) (elite : List ℕ)
    (st : RunState) : (onlookerStep table rnd elite st).sc = st.sc + 1 := by
  unfold onlookerStep
  rw [improveAt_sc]

lemma onlookerStep_ec (table : ℕ → ℕ → ℕ) (rnd : Streams) (elite : List ℕ)
    (st : RunState) : (onlookerStep table rnd elite st).ec = st.ec + 1 := by
  unfold onlookerStep
  rw [improveAt_ec]

lemma foldl_sc_count {β : Type} (f : RunState → β → RunState)
    (hf : ∀ s b, (f s b).sc = s.sc + 1) :
    ∀ (l : List β) (st : RunState), (l.foldl f st).sc = st.sc + l.length := by
  intro l
  induction l with
  | nil => intro st; rfl
  | cons a t ih =>
    intro st
    rw [List.foldl_cons, ih (f st a), hf st a, List.length_cons]
    omega

lemma foldl_ec_count {β : Type} (f : RunState → β → RunState)
    (hf : ∀ s b, (f s b).ec = s.ec + 1) :
    ∀ (l : List β) (st : RunState), (l.foldl f st).ec = st.ec + l.length := by
  intro l
  induction l with
  | nil => intro st; rfl
  | cons a t ih =>
    intro st
    rw [List.foldl_cons, ih (f st a), hf st a, List.length_cons]
    omega

lemma onlookerPhase_noop (table : ℕ → ℕ → ℕ) (rnd : Streams) (bees ns : ℕ)
    (st : RunState) (h : bees ≤ ns) :
    onlookerPhase table rnd bees ns st = st := by
  unfold onlookerPhase
  rw [Nat.sub_eq_zero_of_le h]
  exact if_neg (lt_irrefl 0)

lemma eliteIndices_le (costs : List ℕ) (ns : ℕ) :
    ∀ i ∈ eliteIndices ns costs, ∀ j, j < costs.length →
      j ∉ eliteIndices ns costs → costs.getD i 0 ≤ costs.getD j 0 := by
  intro i hi j hj hjn
  haveI : IsTotal ℕ (fun a b : ℕ => costs.getD a 0 ≤ costs.getD b 0) :=
    ⟨fun a b => le_total _ _⟩
  haveI : IsTrans ℕ (fun a b : ℕ => costs.getD a 0 ≤ costs.getD b 0) :=
    ⟨fun a b c hab hbc => le_trans hab hbc⟩
  have hpair : List.Pairwise (fun a b : ℕ => costs.getD a 0 ≤ costs.getD b 0)
      (argsort costs) :=
    List.sorted_insertionSort (fun a b : ℕ => costs.getD a 0 ≤ costs.getD b 0)
      (List.range costs.length)
  have hsplit := List.take_append_drop (max 1 (ns / 2)) (argsort costs)
  rw [← hsplit] at hpair
  have hcross := (List.pairwise_append.mp hpair).2.2
  have hjmem : j ∈ argsort costs := by
    unfold argsort
    rw [List.mem_insertionSort]
    exact List.mem_range.mpr hj
  rw [← hsplit] at hjmem
  rcases List.mem_append.mp hjmem with hjt | hjd
  · exact absurd hjt hjn
  · exact hcross i hi j hjd

lemma eliteIndices_length (costs : List ℕ) (ns : ℕ) (h : costs.length = ns)
    (hns : 1 ≤ ns) : (eliteIndices ns costs).length = max 1 (ns / 2) := by
  unfold eliteIndices argsort
  rw [List.length_take, List.length_insertionSort, List.length_range, h]
  exact min_eq_left (by omega)

lemma eliteIndices_getD_mem (costs : List ℕ) (ns : ℕ)
    (h : costs.length = ns) (hns : 1 ≤ ns) (pick : ℕ)
    (hp : pick < max 1 (ns / 2)) :
    (eliteIndices ns costs).getD pick 0 ∈ eliteIndices ns costs := by
  have hl : pick < (eliteIndices ns costs).length := by
    rw [eliteIndices_length costs ns h hns]
    exact hp
  rw [List.getD_eq_getElem _ _ hl]
  exact List.getElem_mem hl

lemma improveAt_accept (table : ℕ → ℕ → ℕ) (ab : ℕ × ℕ) (i : ℕ)
    (st : RunState)
    (hc : calculate_cost table (swapPos (st.population.getD i []) ab.1 ab.2)
      < st.costs.getD i 0) :
    (improveAt table ab i st).costs.getD i 0
      = calculate_cost table (swapPos (st.population.getD i []) ab.1 ab.2) := by
  have hi : i < st.costs.length := by
    by_contra hni
    rw [List.getD_eq_default _ _ (le_of_not_lt hni)] at hc
    omega
  unfold improveAt
  dsimp only
  rw [if_pos hc]
  dsimp only
  rw [getD_set, if_pos ⟨rfl, hi⟩]

lemma improveAt_reject (table : ℕ → ℕ → ℕ) (ab : ℕ × ℕ) (i : ℕ)
    (st : RunState)
    (hc : ¬ calculate_cost table (swapPos (st.population.getD i []) ab.1 ab.2)
      < st.costs.getD i 0) :
    improveAt table ab i st = st := by
  unfold improveAt
  dsimp only
  rw [if_neg hc]

/-- Claim C4: if num_bees ≤ num_sites the onlooker phase is the identity (a
no-op, not an error); otherwise it performs exactly num_bees − num_sites
perturbations (each consumes exactly one swap draw and one elite-choice
draw, so the two counters advance by exactly that amount); the elite set
is the max(1, num_sites / 2) positions of minimal cached cost (every elite
site costs no more than every non-elite site); every in-range elite choice
targets a member of the elite set; and each perturbation applies greedy
strictly-improving acceptance against the targeted site's own current
cost. -/
theorem C4_onlooker_phase (table : ℕ → ℕ → ℕ) (rnd : Streams) (bees ns : ℕ)
    (st : RunState) (hns : 1 ≤ ns) (hlen : st.costs.length = ns) :
    (bees ≤ ns → onlookerPhase table rnd bees ns st = st) ∧
    (ns < bees →
      (onlookerPhase table rnd bees ns st).sc = st.sc + (bees - ns) ∧
      (onlookerPhase table rnd bees ns st).ec = st.ec + (bees - ns)) ∧
    (∀ i ∈ eliteIndices ns st.costs, ∀ j, j < st.costs.length →
      j ∉ eliteIndices ns st.costs →
      st.costs.getD i 0 ≤ st.costs.getD j 0) ∧
    (∀ pick, pick < max 1 (ns / 2) →
      (eliteIndices ns st.costs).getD pick 0 ∈ eliteIndices ns st.costs) ∧
    (∀ (stx : RunState) (ab : ℕ × ℕ) (i : ℕ),
      (calculate_cost table (swapPos (stx.population.getD i []) ab.1 ab.2)
          < stx.costs.getD i 0 →
        (improveAt table ab i stx).costs.getD i 0
          = calculate_cost table
              (swapPos (stx.population.getD i []) ab.1 ab.2)) ∧
      (¬ calculate_cost table (swapPos (stx.population.getD i []) ab.1 ab.2)
          < stx.costs.getD i 0 →
        improveAt table ab i stx = stx)) := by
  refine ⟨onlookerPhase_noop table rnd bees ns st, ?_, ?_, ?_, ?_⟩
  · intro hbees
    have hpos : bees - ns > 0 := by omega
    constructor
    · unfold onlookerPhase
      rw [if_pos hpos]
      rw [foldl_sc_count _ (fun s _ => onlookerStep_sc table rnd _ s),
        List.length_range]
    · unfold onlookerPhase
      rw [if_pos hpos]
      rw [foldl_ec_count _ (fun s _ => onlookerStep_ec table rnd _ s),
        List.length_range]
  · exact eliteIndices_le st.costs ns
  · exact fun pick hp => eliteIndices_getD_mem st.costs ns hlen hns pick hp
  · exact fun stx ab i =>
      ⟨improveAt_accept table ab i stx, improveAt_reject table ab i stx⟩

/-- Witness for C4: with two bees and two sites on the concrete 4-city
instance, the onlooker phase leaves the seeded state unchanged. -/
theorem C4_onlooker_phase_witness :
    onlookerPhase tableC5 rndC5 2 2 (initialPop tableC5 rndC5 2)
      = initialPop tableC5 rndC5 2 :=
  (C4_onlooker_phase tableC5 rndC5 2 2 (initialPop tableC5 rndC5 2)
    (by decide) (by decide)).1 (le_refl 2)

/-- Claim C10: best_cost, best_solution and history are instance fields
initialized only in the constructor and never reset by run, so a second
run on the same instance returns a history of length 2 × limit whose first
limit entries are the first run's history, seeds its population with the
first run's final best cost as incumbent, and can only improve on it. -/
theorem C10_second_run_retains_state (table : ℕ → ℕ → ℕ) (rnd : Streams)
    (cfg : Config) :
    (run table rnd cfg (run table rnd cfg initState)).history.length
        = 2 * cfg.limit ∧
    (run table rnd cfg (run table rnd cfg initState)).history.take cfg.limit
        = (run table rnd cfg initState).history ∧
    (initPhase table rnd cfg.num_sites
        (resetLocal (run table rnd cfg initState))).best_cost
      ≤ (run table rnd cfg initState).best_cost ∧
    (run table rnd cfg (run table rnd cfg initState)).best_cost
      ≤ (run table rnd cfg initState).best_cost := by
  have hh0 : (initialPop table rnd cfg.num_sites).history = [] := by
    show (initPhase table rnd cfg.num_sites (resetLocal initState)).history
      = []
    rw [initPhase_history]
    rfl
  have h1len : (run table rnd cfg initState).history.length = cfg.limit := by
    have h := runRounds_history_length table rnd cfg.num_bees cfg.num_sites
      cfg.limit (initialPop table rnd cfg.num_sites)
    rw [hh0] at h
    simpa using h
  have hPh : (initPhase table rnd cfg.num_sites
      (resetLocal (run table rnd cfg initState))).history
      = (run table rnd cfg initState).history := by
    rw [initPhase_history]
    rfl
  refine ⟨?_, ?_, ?_, ?_⟩
  · have h := runRounds_history_length table rnd cfg.num_bees cfg.num_sites
      cfg.limit (initPhase table rnd cfg.num_sites
        (resetLocal (run table rnd cfg initState)))
    rw [hPh, h1len] at h
    have : 2 * cfg.limit = cfg.limit + cfg.limit := by omega
    rw [this]
    exact h
  · obtain ⟨t, ht⟩ := runRounds_history_ex table rnd cfg.num_bees
      cfg.num_sites cfg.limit (initPhase table rnd cfg.num_sites
        (resetLocal (run table rnd cfg initState)))
    rw [hPh] at ht
    show (runRounds table rnd cfg.num_bees cfg.num_sites cfg.limit
      (initPhase table rnd cfg.num_sites
        (resetLocal (run table rnd cfg initState)))).history.take cfg.limit
      = (run table rnd cfg initState).history
    rw [ht, ← h1len, List.take_left]
  · exact initPhase_best_le table rnd cfg.num_sites _
  · exact le_trans
      (runRounds_best_le table rnd cfg.num_bees cfg.num_sites cfg.limit _)
      (initPhase_best_le table rnd cfg.num_sites _)

lemma foldl_selStep_fst (eval : TunerParams → ℚ) (cur : TunerParams)
    (k : PKey) (S : List ℕ) :
    ∀ (l : List ℕ) (acc : ℕ × WithTop ℚ), acc.1 ∈ S → (∀ x ∈ l, x ∈ S) →
      ((l.foldl (selStep eval cur k) acc).1 ∈ S) := by
  intro l
  induction l with
  | nil => intro acc ha _; exact ha
  | cons v t ih =>
    intro acc ha hl
    rw [List.foldl_cons]
    refine ih (selStep eval cur k acc v) ?_ (fun x hx => hl x (by simp [hx]))
    unfold selStep
    split
    · exact hl v (by simp)
    · exact ha

lemma param_range_ne_nil : ∀ k : PKey, param_range k ≠ [] := by
  intro k
  cases k <;> decide

lemma selectVal_mem (eval : TunerParams → ℚ) (cur : TunerParams)
    (k : PKey) : selectVal eval cur k ∈ param_range k := by
  unfold selectVal
  cases hr : param_range k with
  | nil => exact absurd hr (param_range_ne_nil k)
  | cons h t =>
    rw [List.foldl_cons]
    have hfirst : selStep eval cur k (getKey cur k, (⊤ : WithTop ℚ)) h
        = (h, ((eval (setKey cur k h) : ℚ) : WithTop ℚ)) := by
      unfold selStep
      rw [if_pos (WithTop.coe_lt_top _)]
    rw [hfirst]
    exact foldl_selStep_fst eval cur k (h :: t) t
      (h, ((eval (setKey cur k h) : ℚ) : WithTop ℚ))
      (List.mem_cons_self h t) (fun x hx => List.mem_cons_of_mem h hx)

lemma setKey_inRange (p : TunerParams) (k : PKey) (v : ℕ) (hp : inRange p)
    (hv : v ∈ param_range k) : inRange (setKey p k v) := by
  cases k
  · exact ⟨hv, hp.2.1, hp.2.2⟩
  · exact ⟨hp.1, hv, hp.2.2⟩
  · exact ⟨hp.1, hp.2.1, hv⟩

lemma tuneKey_inRange (eval : TunerParams → ℚ) (k : PKey) (s : TState)
    (h : inRange s.cur ∧ inRange s.best) :
    inRange (tuneKey eval k s).cur ∧ inRange (tuneKey eval k s).best := by
  unfold tuneKey
  dsimp only
  split
  · exact ⟨setKey_inRange s.cur k _ h.1 (selectVal_mem eval s.cur k),
      setKey_inRange s.cur k _ h.1 (selectVal_mem eval s.cur k)⟩
  · exact h

lemma tuneLoop_inRange (eval : TunerParams → ℚ) :
    ∀ (fuel : ℕ) (s : TState), inRange s.cur ∧ inRange s.best →
      inRange (tuneLoop eval fuel s) := by
  intro fuel
  induction fuel with
  | zero => intro s h; exact h.2
  | succ fuel ih =>
    intro s h
    unfold tuneLoop
    split
    · refine ih _ ?_
      refine tuneKey_inRange eval .lim _ ?_
      refine tuneKey_inRange eval .sites _ ?_
      exact tuneKey_inRange eval .bees _ h
    · exact h.2

lemma tune_first_key (eval : TunerParams → ℚ) :
    inRange (tuneKey eval .bees ⟨initial_params, initial_params, false⟩).cur
      ∧ inRange
        (tuneKey eval .bees ⟨initial_params, initial_params, false⟩).best := by
  unfold tuneKey
  dsimp only
  have hbv : selectVal eval initial_params .bees ∈ param_range .bees :=
    selectVal_mem eval initial_params .bees
  have h100 : getKey initial_params .bees ∉ param_range .bees := by decide
  have hne : selectVal eval initial_params .bees
      ≠ getKey initial_params .bees :=
    fun heq => h100 (heq ▸ hbv)
  rw [if_pos hne]
  refine ⟨⟨hbv, ?_, ?_⟩, ⟨hbv, ?_, ?_⟩⟩
  · show (25 : ℕ) ∈ param_range PKey.sites
    decide
  · show (1000 : ℕ) ∈ param_range PKey.lim
    decide
  · show (25 : ℕ) ∈ param_range PKey.sites
    decide
  · show (1000 : ℕ) ∈ param_range PKey.lim
    decide

/-- Claim C6: for every evaluation oracle (so for every PRNG stream of the
underlying optimizer runs), each component of the vector ParameterTuner.tune
returns is drawn from that axis's candidate set — never interpolated or
out of range — even though the initial default num_bees = 100 is not a
member of its candidate set range(10, 210, 20). -/
theorem C6_tune_in_candidate_sets (eval : TunerParams → ℚ) :
    ((tune eval).num_bees ∈ param_range .bees ∧
     (tune eval).num_sites ∈ param_range .sites ∧
     (tune eval).limit ∈ param_range .lim) ∧
    getKey initial_params .bees = 100 ∧
    (100 : ℕ) ∉ param_range .bees := by
  refine ⟨?_, rfl, by decide⟩
  show inRange (tune eval)
  have hstep : tune eval
      = tuneLoop eval 2 (tuneCycle eval ⟨initial_params, initial_params,
        false⟩) := rfl
  rw [hstep]
  refine tuneLoop_inRange eval 2 _ ?_
  show inRange (tuneKey eval .lim (tuneKey eval .sites
      (tuneKey eval .bees ⟨initial_params, initial_params, false⟩))).cur ∧ _
  refine tuneKey_inRange eval .lim _ ?_
  refine tuneKey_inRange eval .sites _ ?_
  exact tune_first_key eval

end Solver
